import Mathlib

/-!
Shallow embedding of the address-hierarchy import pipeline of
`src/pages/AddressManagement.tsx`: the CSV row validator (`parseCSV`'s
`complete` callback), the hierarchy extractor and the batched loader
(`uploadData`), together with theorems settling the specification claims.
-/

set_option autoImplicit false

namespace AddressManagement

/-- One input record with the eight string fields (source type `AddressRow`). -/
structure AddressRow where
  regionCode : String
  regionName : String
  provinceCode : String
  provinceName : String
  lguCode : String
  lguName : String
  barangayCode : String
  barangayName : String
deriving DecidableEq, Repr

/-- Region record as built by `uploadData` (`{ code, name }`). -/
structure Region where
  code : String
  name : String
deriving DecidableEq, Repr

/-- Province record as built by `uploadData` (`{ code, name, region_code }`). -/
structure Province where
  code : String
  name : String
  region_code : String
deriving DecidableEq, Repr

/-- Lgu record as built by `uploadData` (`{ code, name, province_code }`). -/
structure Lgu where
  code : String
  name : String
  province_code : String
deriving DecidableEq, Repr

/-- Barangay record as built by `uploadData` (`{ code, name, province_code, lgu_code }`). -/
structure Barangay where
  code : String
  name : String
  province_code : String
  lgu_code : String
deriving DecidableEq, Repr

/-- The entity counts of the validation report (source `validation.stats`). -/
structure Stats where
  regions : Nat
  provinces : Nat
  lgus : Nat
  barangays : Nat
deriving DecidableEq, Repr

/-- The validation report (source `validation` state: `{ valid, errors, stats }`). -/
structure ValidationReport where
  valid : Bool
  errors : List String
  stats : Stats
deriving DecidableEq, Repr

/-- The fixed list of required column names (source `requiredColumns`). -/
def requiredColumns : List String :=
  ["regionCode", "regionName", "provinceCode", "provinceName",
   "lguCode", "lguName", "barangayCode", "barangayName"]

/-- Dynamic field access `row[col]` of the source; every `AddressRow` field is a
string, and `!row[col]` in JS is truth-testing the string, i.e. checking for `""`. -/
def getField (row : AddressRow) : String → String
  | "regionCode" => row.regionCode
  | "regionName" => row.regionName
  | "provinceCode" => row.provinceCode
  | "provinceName" => row.provinceName
  | "lguCode" => row.lguCode
  | "lguName" => row.lguName
  | "barangayCode" => row.barangayCode
  | "barangayName" => row.barangayName
  | _ => ""

/-- The violation string pushed by the source:
`` `Row ${rowNumber}: Missing value for ${col}` ``. -/
def violationMsg (rowNumber : Nat) (col : String) : String :=
  "Row " ++ toString rowNumber ++ ": Missing value for " ++ col

/-- The per-row validation loop of the source (`data.forEach` pushing onto
`validationErrors`): for each row and each required column, append one message
when the field is empty.  `List.enum` supplies the 0-based row index; the source
computes `rowNumber = index + 2`. -/
def rowValidationErrors (data : List AddressRow) : List String :=
  data.enum.foldl
    (fun acc p =>
      requiredColumns.foldl
        (fun acc2 col =>
          if getField p.2 col = "" then acc2 ++ [violationMsg (p.1 + 2) col] else acc2)
        acc)
    []

/-- Distinct counting `new Set(l).size` of the source: the number of distinct strings in `l`. -/
def distinctCount (l : List String) : Nat :=
  l.dedup.length

/-- The `complete` callback of `parseCSV`, as a pure function of the parsed
header (`meta.fields`) and the parsed rows (`data`).  Checks the required
columns, then either fails with the single joined missing-columns message, or
collects the per-row violations and the distinct-count stats. -/
def parseCSVComplete (parsedColumns : List String) (data : List AddressRow) :
    ValidationReport :=
  let missingColumns := requiredColumns.filter (fun col => !(parsedColumns.contains col))
  if missingColumns.length > 0 then
    { valid := false
      errors := ["Missing required columns: " ++ String.intercalate ", " missingColumns]
      stats := ⟨0, 0, 0, 0⟩ }
  else
    let validationErrors := rowValidationErrors data
    { valid := validationErrors.length == 0
      errors := validationErrors
      stats :=
        { regions := distinctCount (data.map (fun row => row.regionCode))
          provinces := distinctCount (data.map (fun row => row.provinceCode))
          lgus := distinctCount (data.map (fun row => row.lguCode))
          barangays := distinctCount (data.map (fun row => row.barangayCode)) } }

/-- Operation `map.set(k, v)` on an insertion-ordered association list, the semantics of
the JavaScript `Map`: an existing key keeps its position but its value is
replaced; a new key is appended at the end. -/
def mapSet {α : Type} (m : List (String × α)) (k : String) (v : α) :
    List (String × α) :=
  if m.any (fun p => p.1 == k) then
    m.map (fun p => if p.1 == k then (k, v) else p)
  else
    m ++ [(k, v)]

/-- Construction `new Map(pairs)` of the source: fold the entry list through `mapSet`, so a
key's position is that of its first occurrence while its value comes from its
last occurrence. -/
def jsMap {α : Type} (pairs : List (String × α)) : List (String × α) :=
  pairs.foldl (fun m p => mapSet m p.1 p.2) []

/-- The Region value built from one row in `uploadData`. -/
def regionOfRow (row : AddressRow) : Region :=
  { code := row.regionCode, name := row.regionName }

/-- The Province value built from one row in `uploadData`. -/
def provinceOfRow (row : AddressRow) : Province :=
  { code := row.provinceCode, name := row.provinceName, region_code := row.regionCode }

/-- The Lgu value built from one row in `uploadData`. -/
def lguOfRow (row : AddressRow) : Lgu :=
  { code := row.lguCode, name := row.lguName, province_code := row.provinceCode }

/-- The Barangay value built from one row in `uploadData`. -/
def barangayOfRow (row : AddressRow) : Barangay :=
  { code := row.barangayCode, name := row.barangayName,
    province_code := row.provinceCode, lgu_code := row.lguCode }

/-- Extraction of `uploadData` for `regions`: `Array.from(new Map(rows.map(...))).map(([_, v]) => v)`. -/
def extractRegions (rows : List AddressRow) : List Region :=
  (jsMap (rows.map (fun row => (row.regionCode, regionOfRow row)))).map Prod.snd

/-- Extraction of `uploadData` for `provinces`, keyed by `provinceCode`. -/
def extractProvinces (rows : List AddressRow) : List Province :=
  (jsMap (rows.map (fun row => (row.provinceCode, provinceOfRow row)))).map Prod.snd

/-- Extraction of `uploadData` for `lgus`, keyed by `lguCode`. -/
def extractLgus (rows : List AddressRow) : List Lgu :=
  (jsMap (rows.map (fun row => (row.lguCode, lguOfRow row)))).map Prod.snd

/-- Extraction of `uploadData` for `barangays`: every row becomes one record, no map, no dedup. -/
def extractBarangays (rows : List AddressRow) : List Barangay :=
  rows.map barangayOfRow

/-- One call issued to the store (`supabase.from(table).delete()` /
`.insert(records)`), with the insert payloads recorded. -/
inductive StoreCall where
  | deleteBarangays
  | deleteLgus
  | deleteProvinces
  | deleteRegions
  | insertRegions (records : List Region)
  | insertProvinces (records : List Province)
  | insertLgus (records : List Lgu)
  | insertBarangays (records : List Barangay)
deriving DecidableEq, Repr

/-- Whether a store call is one of the four insert operations. -/
def StoreCall.isInsert : StoreCall → Bool
  | .insertRegions _ => true
  | .insertProvinces _ => true
  | .insertLgus _ => true
  | .insertBarangays _ => true
  | _ => false

/-- Position of a call in the fixed delete-then-insert order of `uploadData`:
deletes `barangays, lgus, provinces, regions` then inserts
`regions, provinces, lgus, barangays`. -/
def rank : StoreCall → Nat
  | .deleteBarangays => 0
  | .deleteLgus => 1
  | .deleteProvinces => 2
  | .deleteRegions => 3
  | .insertRegions _ => 4
  | .insertProvinces _ => 5
  | .insertLgus _ => 6
  | .insertBarangays _ => 7

/-- The loader's state values (source `uploadStatus`). -/
inductive UploadStatus where
  | idle
  | validating
  | uploading
  | success
  | error
deriving DecidableEq, Repr

/-- A store behaviour: the error result (if any) each call would return,
mirroring the supabase client's error-as-data convention (`{ error }` in the
resolved value; the promise itself does not reject). -/
def Store : Type := StoreCall → Option String

/-- Constant `BATCH_SIZE` of `uploadData`. -/
def BATCH_SIZE : Nat := 1000

/-- Fuel-indexed helper for `chunks`; any fuel of at least the list's length
yields the full chunking (structural recursion keeps it kernel-reducible). -/
def chunksAux {α : Type} : Nat → List α → List (List α)
  | _, [] => []
  | 0, _ :: _ => []
  | fuel + 1, a :: l => ((a :: l).take BATCH_SIZE) :: chunksAux fuel ((a :: l).drop BATCH_SIZE)

/-- The barangay batching loop of `uploadData`:
`for (i = 0; i < len; i += BATCH_SIZE) slice(i, i + BATCH_SIZE)`. -/
def chunks {α : Type} (l : List α) : List (List α) :=
  chunksAux l.length l

/-- The four delete calls of `uploadData`, in source order (children first).
Their results are discarded by the source: no `error` check follows them. -/
def deletePlan : List StoreCall :=
  [StoreCall.deleteBarangays, StoreCall.deleteLgus,
   StoreCall.deleteProvinces, StoreCall.deleteRegions]

/-- The insert calls of `uploadData`, in source order: each of the three
deduplicated collections is inserted as a single call guarded by
`if (collection.length > 0)`, then the barangays are inserted batch by batch. -/
def insertPlan (regions : List Region) (provinces : List Province)
    (lgus : List Lgu) (barangays : List Barangay) : List StoreCall :=
  (if regions.length > 0 then [StoreCall.insertRegions regions] else []) ++
  (if provinces.length > 0 then [StoreCall.insertProvinces provinces] else []) ++
  (if lgus.length > 0 then [StoreCall.insertLgus lgus] else []) ++
  (if barangays.length > 0 then (chunks barangays).map StoreCall.insertBarangays else [])

/-- Sequential execution of insert calls with the source's error check after
each (`if (error) throw ...`): the trace of issued calls, and `success` when
all succeed or `error` at the first failing call (later calls are not issued). -/
def runInserts (store : Store) : List StoreCall → List StoreCall × UploadStatus
  | [] => ([], UploadStatus.success)
  | c :: cs =>
    match store c with
    | some _ => ([c], UploadStatus.error)
    | none => ((runInserts store cs).1.cons c, (runInserts store cs).2)

/-- Observable outcome of one `uploadData` invocation: the store calls issued,
in order, and the successive `setUploadStatus` values. -/
structure UploadResult where
  calls : List StoreCall
  statuses : List UploadStatus
deriving DecidableEq, Repr

/-- Function `uploadData`: rejects unless the last report is valid and rows are present;
otherwise sets `uploading`, extracts the four collections, issues the four
deletes (results discarded, per the source), then runs the guarded inserts and
sets the final status (`success`, or `error` from the first failing insert —
the `catch` block). -/
def uploadData (validation : ValidationReport) (rows : List AddressRow)
    (store : Store) : UploadResult :=
  if validation.valid = false ∨ rows.length = 0 then
    { calls := [], statuses := [] }
  else
    let regions := extractRegions rows
    let provinces := extractProvinces rows
    let lgus := extractLgus rows
    let barangays := extractBarangays rows
    let r := runInserts store (insertPlan regions provinces lgus barangays)
    { calls := deletePlan ++ r.1
      statuses := [UploadStatus.uploading, r.2] }

/-- The spec's description of the row-level violation list: one message per
(row, empty required field) pair, rows in order, fields in the required-column
order, the row number being the 0-based index plus 2. -/
def specViolations (data : List AddressRow) : List String :=
  data.enum.flatMap (fun p =>
    (requiredColumns.filter (fun col => decide (getField p.2 col = ""))).map
      (fun col => violationMsg (p.1 + 2) col))

/-- Concrete rows and headers used by the witnesses and counterexamples. -/
def sampleRow : AddressRow :=
  ⟨"01", "R1", "P1", "Prov1", "L1", "Lgu1", "B1", "Brgy1"⟩

/-- Row with an empty `barangayName` (Scenario C). -/
def rowMissingBarangayName : AddressRow :=
  ⟨"01", "R1", "P1", "Prov1", "L1", "Lgu1", "B1", ""⟩

/-- A header missing exactly `lguCode` (Scenario B). -/
def colsMissingLguCode : List String :=
  ["regionCode", "regionName", "provinceCode", "provinceName",
   "lguName", "barangayCode", "barangayName"]

/-- Two rows sharing a `regionCode` but with different region names. -/
def rowDupRegionA : AddressRow :=
  ⟨"01", "Alpha", "P1", "Prov1", "L1", "Lgu1", "B1", "Brgy1"⟩

/-- Second occurrence of region code `01`, named differently. -/
def rowDupRegionB : AddressRow :=
  ⟨"01", "Beta", "P2", "Prov2", "L2", "Lgu2", "B2", "Brgy2"⟩

/-- Two rows sharing a `barangayCode`. -/
def rowDupBgyA : AddressRow :=
  ⟨"01", "R1", "P1", "Prov1", "L1", "Lgu1", "B9", "BrgyA"⟩

/-- Second row with the same barangay code `B9`. -/
def rowDupBgyB : AddressRow :=
  ⟨"02", "R2", "P2", "Prov2", "L2", "Lgu2", "B9", "BrgyB"⟩

/-- Folding a conditional push over a list collects exactly the filtered,
mapped elements after the accumulator. -/
theorem foldl_ite_push {α β : Type} (P : α → Prop) [DecidablePred P] (f : α → β)
    (l : List α) : ∀ acc : List β,
    l.foldl (fun a c => if P c then a ++ [f c] else a) acc
      = acc ++ (l.filter (fun c => decide (P c))).map f := by
  induction l with
  | nil => intro acc; simp
  | cons c cs ih =>
    intro acc
    by_cases h : P c <;>
      simp [List.foldl_cons, h, ih, List.filter_cons, List.append_assoc]

/-- Folding an unconditional append over a list is flat-mapping it. -/
theorem foldl_append_eq_flatMap {α β : Type} (g : α → List β)
    (l : List α) : ∀ acc : List β,
    l.foldl (fun a c => a ++ g c) acc = acc ++ l.flatMap g := by
  induction l with
  | nil => intro acc; simp
  | cons c cs ih => intro acc; simp [List.foldl_cons, ih, List.append_assoc]

/-- The source's accumulated `validationErrors` list coincides with the
spec-described violation list. -/
theorem rowValidationErrors_eq_spec (data : List AddressRow) :
    rowValidationErrors data = specViolations data := by
  unfold rowValidationErrors specViolations
  have hfun :
      (fun (acc : List String) (p : Nat × AddressRow) =>
        requiredColumns.foldl
          (fun acc2 col =>
            if getField p.2 col = "" then acc2 ++ [violationMsg (p.1 + 2) col] else acc2)
          acc)
      = (fun (acc : List String) (p : Nat × AddressRow) =>
          acc ++ ((requiredColumns.filter (fun col => decide (getField p.2 col = ""))).map
            (fun col => violationMsg (p.1 + 2) col))) := by
    funext acc p
    exact foldl_ite_push (fun col => getField p.2 col = "")
      (fun col => violationMsg (p.1 + 2) col) requiredColumns acc
  rw [hfun]
  simpa using foldl_append_eq_flatMap
    (fun p : Nat × AddressRow =>
      (requiredColumns.filter (fun col => decide (getField p.2 col = ""))).map
        (fun col => violationMsg (p.1 + 2) col))
    data.enum []

/-- When no required column is missing, the filter of absent columns is empty. -/
theorem missing_filter_eq_nil {parsedColumns : List String}
    (hc : ∀ col ∈ requiredColumns, parsedColumns.contains col = true) :
    requiredColumns.filter (fun col => !(parsedColumns.contains col)) = [] := by
  simp only [List.filter_eq_nil_iff]
  intro c hcmem
  simp only [Bool.not_eq_true', Bool.not_eq_false]
  exact hc c hcmem

/-- C4: if the header lacks a non-empty subset of the eight required columns,
validation fails with exactly one error message that joins every missing column
name into a single string, and per-row checks contribute nothing: the error
list is exactly that singleton. -/
theorem missing_columns_single_error (parsedColumns : List String)
    (data : List AddressRow)
    (hm : requiredColumns.filter (fun col => !(parsedColumns.contains col)) ≠ []) :
    (parseCSVComplete parsedColumns data).valid = false ∧
    (parseCSVComplete parsedColumns data).errors =
      ["Missing required columns: " ++ String.intercalate ", "
        (requiredColumns.filter (fun col => !(parsedColumns.contains col)))] ∧
    (parseCSVComplete parsedColumns data).errors.length = 1 := by
  have h1 : 0 < (requiredColumns.filter (fun col => !(parsedColumns.contains col))).length :=
    List.length_pos.mpr hm
  unfold parseCSVComplete
  simp only [if_pos h1]
  exact ⟨trivial, trivial, rfl⟩

/-- Witness for C4 at Scenario B: a header missing only `lguCode`. -/
theorem missing_columns_single_error_witness :
    (parseCSVComplete colsMissingLguCode []).valid = false ∧
    (parseCSVComplete colsMissingLguCode []).errors =
      ["Missing required columns: " ++ String.intercalate ", "
        (requiredColumns.filter (fun col => !(colsMissingLguCode.contains col)))] ∧
    (parseCSVComplete colsMissingLguCode []).errors.length = 1 ∧
    (parseCSVComplete colsMissingLguCode []).errors =
      ["Missing required columns: lguCode"] := by
  have h := missing_columns_single_error colsMissingLguCode [] (by decide)
  exact ⟨h.1, h.2.1, h.2.2, by decide⟩

/-- C5: with all required columns present, the validator walks every row and
every one of the eight fields without short-circuiting; the error list is
exactly one `Row {index + 2}: Missing value for {field}` message per empty
field, in row-major order, and the report is valid iff that list is empty. -/
theorem row_validation_enumerates_all (parsedColumns : List String)
    (data : List AddressRow)
    (hc : ∀ col ∈ requiredColumns, parsedColumns.contains col = true) :
    (parseCSVComplete parsedColumns data).errors = specViolations data ∧
    ((parseCSVComplete parsedColumns data).valid = true ↔
      (parseCSVComplete parsedColumns data).errors = []) := by
  have h0 := missing_filter_eq_nil hc
  unfold parseCSVComplete
  rw [h0]
  simp [rowValidationErrors_eq_spec, List.length_eq_zero]

/-- Witness for C5 at Scenario C: one row with an empty `barangayName`. -/
theorem row_validation_enumerates_all_witness :
    ((parseCSVComplete requiredColumns [rowMissingBarangayName]).errors =
        specViolations [rowMissingBarangayName] ∧
      ((parseCSVComplete requiredColumns [rowMissingBarangayName]).valid = true ↔
        (parseCSVComplete requiredColumns [rowMissingBarangayName]).errors = [])) ∧
    (parseCSVComplete requiredColumns [rowMissingBarangayName]).errors =
      ["Row 2: Missing value for barangayName"] :=
  ⟨row_validation_enumerates_all requiredColumns [rowMissingBarangayName] (by decide),
   by decide⟩

/-- C2 counterexample: two rows sharing a barangay code give `stats.barangays
= 1`, not the row count `2` that the claim asserts. -/
theorem stats_barangays_not_row_count :
    ([rowDupBgyA, rowDupBgyB] : List AddressRow).length = 2 ∧
    (parseCSVComplete requiredColumns [rowDupBgyA, rowDupBgyB]).valid = true ∧
    (parseCSVComplete requiredColumns [rowDupBgyA, rowDupBgyB]).stats.barangays = 1 ∧
    (parseCSVComplete requiredColumns [rowDupBgyA, rowDupBgyB]).stats.barangays ≠ 2 := by
  decide

/-- C2 amended: `stats.barangays` is the number of distinct `barangayCode`
values among the rows (`new Set(...).size`), not the number of rows. -/
theorem stats_barangays_distinct_count (parsedColumns : List String)
    (data : List AddressRow)
    (hc : ∀ col ∈ requiredColumns, parsedColumns.contains col = true) :
    (parseCSVComplete parsedColumns data).stats.barangays
      = (data.map (fun row => row.barangayCode)).toFinset.card := by
  have h0 := missing_filter_eq_nil hc
  unfold parseCSVComplete
  rw [h0]
  simp [distinctCount, List.card_toFinset]

/-- Witness for C2's amended statement on the duplicate-code input. -/
theorem stats_barangays_distinct_count_witness :
    (parseCSVComplete requiredColumns [rowDupBgyA, rowDupBgyB]).stats.barangays
      = ([rowDupBgyA, rowDupBgyB].map (fun row => row.barangayCode)).toFinset.card :=
  stats_barangays_distinct_count requiredColumns [rowDupBgyA, rowDupBgyB] (by decide)

/-- C6: the extracted barangay collection has one record per input row, in
input order, derived from that row, with no deduplication by code. -/
theorem barangays_pass_through (rows : List AddressRow) :
    (extractBarangays rows).length = rows.length ∧
    ∀ i : Nat, (extractBarangays rows)[i]? = rows[i]?.map barangayOfRow := by
  refine ⟨by simp [extractBarangays], fun i => ?_⟩
  simp [extractBarangays]

/-- Overwriting the entries keyed `k` does not change a lookup for a different
key `c`. -/
theorem find?_overwrite_ne {α : Type} (k c : String) (v : α) (hkc : k ≠ c)
    (m : List (String × α)) :
    (m.map (fun p => if p.1 == k then (k, v) else p)).find? (fun q => q.1 == c)
      = m.find? (fun q => q.1 == c) := by
  induction m with
  | nil => rfl
  | cons p ps ih =>
    simp only [List.map_cons]
    by_cases h : p.1 = k
    · have hck : (if p.1 == k then (k, v) else p) = (k, v) := by simp [h]
      rw [hck, List.find?_cons_of_neg _ (by simp [hkc]), ih,
        List.find?_cons_of_neg _ (by simp [h, hkc])]
    · have hck : (if p.1 == k then (k, v) else p) = p := by simp [h]
      rw [hck]
      by_cases h2 : p.1 = c
      · rw [List.find?_cons_of_pos _ (by simp [h2]),
          List.find?_cons_of_pos _ (by simp [h2])]
      · rw [List.find?_cons_of_neg _ (by simp [h2]), ih,
          List.find?_cons_of_neg _ (by simp [h2])]

/-- If some entry has key `k`, overwriting makes the lookup for `k` return the
new value. -/
theorem find?_overwrite_eq {α : Type} (k : String) (v : α) (m : List (String × α))
    (hm : m.any (fun p => p.1 == k) = true) :
    (m.map (fun p => if p.1 == k then (k, v) else p)).find? (fun q => q.1 == k)
      = some (k, v) := by
  induction m with
  | nil => simp at hm
  | cons p ps ih =>
    simp only [List.map_cons]
    by_cases h : p.1 = k
    · have hck : (if p.1 == k then (k, v) else p) = (k, v) := by simp [h]
      rw [hck, List.find?_cons_of_pos _ (by simp)]
    · have hbk : (p.1 == k) = false := by simp [h]
      have hck : (if p.1 == k then (k, v) else p) = p := by simp [h]
      simp only [List.any_cons, hbk, Bool.false_or] at hm
      rw [hck, List.find?_cons_of_neg _ (by simp [h]), ih hm]

/-- Lookup after a single `mapSet`: the written key now maps to the written
value, every other key is untouched. -/
theorem find?_mapSet {α : Type} (m : List (String × α)) (k c : String) (v : α) :
    (mapSet m k v).find? (fun q => q.1 == c)
      = if k = c then some (k, v) else m.find? (fun q => q.1 == c) := by
  unfold mapSet
  cases hany : m.any (fun p => p.1 == k) with
  | true =>
    rw [if_pos rfl]
    by_cases hkc : k = c
    · subst hkc
      rw [if_pos rfl]
      exact find?_overwrite_eq k v m hany
    · rw [if_neg hkc]
      exact find?_overwrite_ne k c v hkc m
  | false =>
    rw [if_neg Bool.false_ne_true, List.find?_append]
    by_cases hkc : k = c
    · subst hkc
      have hnone : m.find? (fun q => q.1 == k) = none := by
        rw [List.find?_eq_none]
        intro q hq
        have := List.any_eq_false.mp hany q hq
        simpa using this
      rw [hnone, Option.none_or, if_pos rfl,
        List.find?_cons_of_pos _ (by simp)]
    · have hsingle : ([(k, v)].find? (fun q => q.1 == c)) = none := by
        rw [List.find?_cons_of_neg _ (by simp [hkc])]
        rfl
      rw [hsingle, Option.or_none, if_neg hkc]

/-- Lookup through the whole fold: the latest write wins, falling back to the
initial map. -/
theorem find?_foldl_mapSet {α : Type} (c : String) (pairs : List (String × α)) :
    ∀ m : List (String × α),
    ((pairs.foldl (fun m p => mapSet m p.1 p.2) m).find? (fun q => q.1 == c))
      = ((pairs.reverse.find? (fun q => q.1 == c)).or
          (m.find? (fun q => q.1 == c))) := by
  induction pairs with
  | nil => intro m; simp
  | cons p ps ih =>
    intro m
    simp only [List.foldl_cons, List.reverse_cons, List.find?_append]
    rw [ih (mapSet m p.1 p.2), find?_mapSet, Option.or_assoc]
    by_cases hpc : p.1 = c
    · have hp : ([p].find? (fun q => q.1 == c)) = some p := by
        rw [List.find?_cons_of_pos _ (by simp [hpc])]
      rw [if_pos hpc, hp, Option.or_some]
    · have hp : ([p].find? (fun q => q.1 == c)) = none := by
        rw [List.find?_cons_of_neg _ (by simp [hpc])]
        rfl
      rw [hp, if_neg hpc, Option.none_or]

/-- Lookup in `new Map(pairs)` finds the value of the last pair carrying the
key. -/
theorem jsMap_find? {α : Type} (pairs : List (String × α)) (c : String) :
    (jsMap pairs).find? (fun q => q.1 == c)
      = pairs.reverse.find? (fun q => q.1 == c) := by
  unfold jsMap
  rw [find?_foldl_mapSet]
  simp

/-- The keys after `mapSet`: unchanged if the key was present, appended
otherwise. -/
theorem keys_mapSet {α : Type} (m : List (String × α)) (k : String) (v : α) :
    (mapSet m k v).map Prod.fst
      = if m.any (fun p => p.1 == k) then m.map Prod.fst
        else m.map Prod.fst ++ [k] := by
  unfold mapSet
  cases hany : m.any (fun p => p.1 == k) with
  | true =>
    rw [if_pos rfl, if_pos rfl, List.map_map]
    apply List.map_congr_left
    intro p hp
    by_cases h : p.1 = k <;> simp [h]
  | false =>
    rw [if_neg Bool.false_ne_true, if_neg Bool.false_ne_true]
    simp

/-- Writing with `mapSet` preserves key distinctness. -/
theorem keys_nodup_mapSet {α : Type} (m : List (String × α)) (k : String) (v : α)
    (h : (m.map Prod.fst).Nodup) : ((mapSet m k v).map Prod.fst).Nodup := by
  rw [keys_mapSet]
  cases hany : m.any (fun p => p.1 == k) with
  | true =>
    rw [if_pos rfl]
    exact h
  | false =>
    have hk : k ∉ m.map Prod.fst := by
      intro hmem
      obtain ⟨p, hp, hpk⟩ := List.mem_map.mp hmem
      have := List.any_eq_false.mp hany p hp
      simp [hpk] at this
    rw [if_neg Bool.false_ne_true]
    simp [List.nodup_append, h, hk]

/-- The keys of `new Map(pairs)` are pairwise distinct. -/
theorem jsMap_keys_nodup {α : Type} (pairs : List (String × α)) :
    ((jsMap pairs).map Prod.fst).Nodup := by
  unfold jsMap
  suffices h : ∀ m : List (String × α), (m.map Prod.fst).Nodup →
      ((pairs.foldl (fun m p => mapSet m p.1 p.2) m).map Prod.fst).Nodup by
    exact h [] (by simp)
  induction pairs with
  | nil => intro m hm; exact hm
  | cons p ps ih => intro m hm; exact ih _ (keys_nodup_mapSet m p.1 p.2 hm)

/-- Every entry produced by `mapSet` is an old entry or the written pair. -/
theorem mem_mapSet {α : Type} {q : String × α} {m : List (String × α)}
    {k : String} {v : α} (h : q ∈ mapSet m k v) : q ∈ m ∨ q = (k, v) := by
  unfold mapSet at h
  by_cases hany : (m.any fun p => p.1 == k) = true
  case pos =>
    rw [if_pos hany] at h
    obtain ⟨p, hp, hpq⟩ := List.mem_map.mp h
    by_cases hpk : p.1 = k
    · right
      rw [← hpq]
      simp [hpk]
    · left
      have : (p.1 == k) = false := by simp [hpk]
      rw [this] at hpq
      simpa [← hpq] using hp
  case neg =>
    rw [if_neg hany] at h
    rcases List.mem_append.mp h with h' | h'
    · exact Or.inl h'
    · right; simpa using h'

/-- Every entry of `new Map(pairs)` is one of the given pairs. -/
theorem mem_jsMap {α : Type} (pairs : List (String × α)) :
    ∀ q ∈ jsMap pairs, q ∈ pairs := by
  unfold jsMap
  suffices h : ∀ m : List (String × α),
      ∀ q ∈ pairs.foldl (fun m p => mapSet m p.1 p.2) m, q ∈ m ∨ q ∈ pairs by
    intro q hq
    exact (h [] q hq).resolve_left (by simp)
  induction pairs with
  | nil => intro m q hq; exact Or.inl hq
  | cons p ps ih =>
    intro m q hq
    rcases ih (mapSet m p.1 p.2) q hq with h' | h'
    · rcases mem_mapSet h' with h'' | h''
      · exact Or.inl h''
      · right
        rw [h'']
        exact List.mem_cons_self _ _
    · exact Or.inr (List.mem_cons_of_mem _ h')

/-- Looking up an entity by its code in the value list is looking up its key,
provided every stored value carries its key as code. -/
theorem find?_map_snd {α : Type} (codeOf : α → String) (c : String) :
    ∀ m : List (String × α), (∀ q ∈ m, codeOf q.2 = q.1) →
    (m.map Prod.snd).find? (fun v => codeOf v == c)
      = (m.find? (fun q => q.1 == c)).map Prod.snd := by
  intro m
  induction m with
  | nil => intro _; rfl
  | cons q qs ih =>
    intro hcons
    have hq : codeOf q.2 = q.1 := hcons q (List.mem_cons_self _ _)
    by_cases h : q.1 = c
    · simp [List.find?_cons, hq, h]
    · have h1 : (codeOf q.2 == c) = false := by simp [hq, h]
      have h2 : (q.1 == c) = false := by simp [h]
      simp [List.find?_cons, h1, h2,
        ih (fun r hr => hcons r (List.mem_cons_of_mem _ hr))]

/-- The codes of the stored values are exactly the stored keys, under the same
consistency hypothesis. -/
theorem map_codeOf_snd_eq_keys {α : Type} (codeOf : α → String)
    (m : List (String × α)) (hm : ∀ q ∈ m, codeOf q.2 = q.1) :
    (m.map Prod.snd).map codeOf = m.map Prod.fst := by
  rw [List.map_map]
  exact List.map_congr_left hm

/-- Deduplication behaviour of one extraction level: codes are pairwise
distinct, and the record stored for a code is derived from the last row with
that code. -/
theorem extract_level_spec {β : Type} (keyOf : AddressRow → String)
    (valOf : AddressRow → β) (codeOf : β → String)
    (hcode : ∀ row, codeOf (valOf row) = keyOf row) (rows : List AddressRow) :
    (((jsMap (rows.map (fun row => (keyOf row, valOf row)))).map Prod.snd).map
        codeOf).Nodup ∧
    ∀ c : String,
      ((jsMap (rows.map (fun row => (keyOf row, valOf row)))).map Prod.snd).find?
          (fun v => codeOf v == c)
        = (rows.reverse.find? (fun row => keyOf row == c)).map valOf := by
  have hcons : ∀ q ∈ jsMap (rows.map (fun row => (keyOf row, valOf row))),
      codeOf q.2 = q.1 := by
    intro q hq
    have hqp := mem_jsMap _ q hq
    obtain ⟨row, _, hq'⟩ := List.mem_map.mp hqp
    rw [← hq']
    exact hcode row
  constructor
  · rw [map_codeOf_snd_eq_keys codeOf _ hcons]
    exact jsMap_keys_nodup _
  · intro c
    rw [find?_map_snd codeOf c _ hcons, jsMap_find?, ← List.map_reverse,
      List.find?_map, Option.map_map]
    rfl

/-- C1 counterexample: inserting region code `01` twice with names `Alpha`
then `Beta` yields exactly one Region entity, but it is the one derived from
the SECOND occurrence, not the first as the claim states. -/
theorem extract_regions_first_wins_false :
    extractRegions [rowDupRegionA, rowDupRegionB]
      = [{ code := "01", name := "Beta" }] ∧
    regionOfRow rowDupRegionA = { code := "01", name := "Alpha" } ∧
    extractRegions [rowDupRegionA, rowDupRegionB] ≠ [regionOfRow rowDupRegionA] := by
  decide

/-- C1 amended: each of the Region/Province/Lgu collections holds at most one
record per distinct code, and the record stored for a code is the one derived
from the LAST row in which that code occurs (later rows overwrite earlier
ones; key order is still first-occurrence order). -/
theorem extract_dedup_last_wins (rows : List AddressRow) :
    ((extractRegions rows).map Region.code).Nodup ∧
    ((extractProvinces rows).map Province.code).Nodup ∧
    ((extractLgus rows).map Lgu.code).Nodup ∧
    ∀ c : String,
      (extractRegions rows).find? (fun r => r.code == c)
          = (rows.reverse.find? (fun row => row.regionCode == c)).map regionOfRow ∧
      (extractProvinces rows).find? (fun p => p.code == c)
          = (rows.reverse.find? (fun row => row.provinceCode == c)).map provinceOfRow ∧
      (extractLgus rows).find? (fun l => l.code == c)
          = (rows.reverse.find? (fun row => row.lguCode == c)).map lguOfRow := by
  have hr := extract_level_spec (fun row => row.regionCode) regionOfRow Region.code
    (fun _ => rfl) rows
  have hp := extract_level_spec (fun row => row.provinceCode) provinceOfRow Province.code
    (fun _ => rfl) rows
  have hl := extract_level_spec (fun row => row.lguCode) lguOfRow Lgu.code
    (fun _ => rfl) rows
  exact ⟨hr.1, hp.1, hl.1, fun c => ⟨hr.2 c, hp.2 c, hl.2 c⟩⟩

/-- Constant `BATCH_SIZE` unfolds to the source literal. -/
theorem BATCH_SIZE_eq : BATCH_SIZE = 1000 := rfl

/-- With enough fuel, the chunks concatenate back to the original list. -/
theorem chunksAux_flatten {α : Type} :
    ∀ (fuel : Nat) (l : List α), l.length ≤ fuel → (chunksAux fuel l).flatten = l := by
  intro fuel
  induction fuel with
  | zero =>
    intro l hl
    cases l with
    | nil => rfl
    | cons a l => simp at hl
  | succ f ih =>
    intro l hl
    cases l with
    | nil => rfl
    | cons a l =>
      simp only [chunksAux, List.flatten_cons]
      rw [ih ((a :: l).drop BATCH_SIZE) (by simp [BATCH_SIZE_eq] at hl ⊢; omega)]
      exact List.take_append_drop _ _

/-- With enough fuel, the number of chunks is the rounded-up quotient. -/
theorem chunksAux_length_eq {α : Type} :
    ∀ (fuel : Nat) (l : List α), l.length ≤ fuel →
      (chunksAux fuel l).length = (l.length + (BATCH_SIZE - 1)) / BATCH_SIZE := by
  intro fuel
  induction fuel with
  | zero =>
    intro l hl
    cases l with
    | nil => simp [chunksAux, BATCH_SIZE_eq]
    | cons a l => simp at hl
  | succ f ih =>
    intro l hl
    cases l with
    | nil => simp [chunksAux, BATCH_SIZE_eq]
    | cons a l =>
      simp only [chunksAux, List.length_cons]
      rw [ih _ (by simp [BATCH_SIZE_eq] at hl ⊢; omega)]
      simp only [List.length_drop, List.length_cons, BATCH_SIZE_eq] at hl ⊢
      omega

/-- Every chunk is non-empty and no larger than the batch size. -/
theorem chunksAux_mem_size {α : Type} :
    ∀ (fuel : Nat) (l : List α), l.length ≤ fuel →
      ∀ c ∈ chunksAux fuel l, 0 < c.length ∧ c.length ≤ BATCH_SIZE := by
  intro fuel
  induction fuel with
  | zero =>
    intro l hl c hc
    cases l with
    | nil => simp [chunksAux] at hc
    | cons a l => simp at hl
  | succ f ih =>
    intro l hl c hc
    cases l with
    | nil => simp [chunksAux] at hc
    | cons a l =>
      simp only [chunksAux, List.mem_cons] at hc
      rcases hc with hc | hc
      · subst hc
        simp only [List.length_take, List.length_cons, BATCH_SIZE_eq]
        omega
      · exact ih _ (by simp [BATCH_SIZE_eq] at hl ⊢; omega) c hc

/-- A non-empty list chunked with enough fuel yields at least one chunk. -/
theorem chunksAux_ne_nil {α : Type} (fuel : Nat) (l : List α)
    (hl : l.length ≤ fuel) (hne : l ≠ []) : chunksAux fuel l ≠ [] := by
  cases l with
  | nil => exact absurd rfl hne
  | cons a l =>
    cases fuel with
    | zero => simp at hl
    | succ f => simp [chunksAux]

/-- Every chunk but the last is exactly the batch size. -/
theorem chunksAux_dropLast_size {α : Type} :
    ∀ (fuel : Nat) (l : List α), l.length ≤ fuel →
      ∀ c ∈ (chunksAux fuel l).dropLast, c.length = BATCH_SIZE := by
  intro fuel
  induction fuel with
  | zero =>
    intro l hl c hc
    cases l with
    | nil => simp [chunksAux] at hc
    | cons a l => simp at hl
  | succ f ih =>
    intro l hl c hc
    cases l with
    | nil => simp [chunksAux] at hc
    | cons a l =>
      simp only [chunksAux] at hc
      by_cases hrest : (a :: l).drop BATCH_SIZE = []
      · rw [hrest] at hc
        simp [chunksAux] at hc
      · have hrest' : chunksAux f ((a :: l).drop BATCH_SIZE) ≠ [] :=
          chunksAux_ne_nil f _ (by simp [BATCH_SIZE_eq] at hl ⊢; omega) hrest
        rw [List.dropLast_cons_of_ne_nil hrest'] at hc
        rcases List.mem_cons.mp hc with hc | hc
        · subst hc
          have hlen : BATCH_SIZE < (a :: l).length := by
            by_contra hle
            exact hrest (List.drop_eq_nil_of_le (by omega))
          simp only [List.length_take, List.length_cons, BATCH_SIZE_eq] at hlen ⊢
          omega
        · exact ih _ (by simp [BATCH_SIZE_eq] at hl ⊢; omega) c hc

/-- Flattening `chunks` recovers the original list. -/
theorem chunks_flatten {α : Type} (l : List α) : (chunks l).flatten = l :=
  chunksAux_flatten l.length l (Nat.le_refl _)

/-- Chunking produces the rounded-up quotient of batches. -/
theorem chunks_length_eq {α : Type} (l : List α) :
    (chunks l).length = (l.length + (BATCH_SIZE - 1)) / BATCH_SIZE :=
  chunksAux_length_eq l.length l (Nat.le_refl _)

/-- Every chunk of `chunks` is non-empty and at most the batch size. -/
theorem chunks_mem_size {α : Type} (l : List α) :
    ∀ c ∈ chunks l, 0 < c.length ∧ c.length ≤ BATCH_SIZE :=
  chunksAux_mem_size l.length l (Nat.le_refl _)

/-- Every chunk of `chunks` except possibly the last has full batch size. -/
theorem chunks_dropLast_size {α : Type} (l : List α) :
    ∀ c ∈ (chunks l).dropLast, c.length = BATCH_SIZE :=
  chunksAux_dropLast_size l.length l (Nat.le_refl _)

/-- A store that never errors lets every planned insert run. -/
theorem runInserts_all_ok (plan : List StoreCall) :
    runInserts (fun _ => none) plan = (plan, UploadStatus.success) := by
  induction plan with
  | nil => rfl
  | cons c cs ih => simp [runInserts, ih]

/-- Whatever the store does, the issued insert calls are a prefix of the
plan. -/
theorem runInserts_prefix (store : Store) :
    ∀ plan : List StoreCall, ∃ n, (runInserts store plan).1 = plan.take n := by
  intro plan
  induction plan with
  | nil => exact ⟨0, rfl⟩
  | cons c cs ih =>
    cases hs : store c with
    | some e => exact ⟨1, by simp [runInserts, hs]⟩
    | none =>
      obtain ⟨n, hn⟩ := ih
      exact ⟨n + 1, by simp [runInserts, hs, hn]⟩

/-- Membership in a guarded branch forces the guard and membership in its
list. -/
theorem mem_ite_of_mem {α : Type} {cond : Prop} [Decidable cond] {l : List α}
    {c : α} (h : c ∈ (if cond then l else [])) : cond ∧ c ∈ l := by
  by_cases hc : cond
  · rw [if_pos hc] at h
    exact ⟨hc, h⟩
  · rw [if_neg hc] at h
    simp at h

/-- Case analysis for membership in the insert plan. -/
theorem mem_insertPlan_cases {regions : List Region} {provinces : List Province}
    {lgus : List Lgu} {barangays : List Barangay} {c : StoreCall}
    (hc : c ∈ insertPlan regions provinces lgus barangays) :
    (c = StoreCall.insertRegions regions ∧ regions.length > 0) ∨
    (c = StoreCall.insertProvinces provinces ∧ provinces.length > 0) ∨
    (c = StoreCall.insertLgus lgus ∧ lgus.length > 0) ∨
    (∃ b, c = StoreCall.insertBarangays b ∧ b ∈ chunks barangays ∧
      barangays.length > 0) := by
  unfold insertPlan at hc
  rcases List.mem_append.mp hc with h | h
  · rcases List.mem_append.mp h with h | h
    · rcases List.mem_append.mp h with h | h
      · obtain ⟨hcond, hm⟩ := mem_ite_of_mem h
        left
        exact ⟨by simpa using hm, hcond⟩
      · obtain ⟨hcond, hm⟩ := mem_ite_of_mem h
        right; left
        exact ⟨by simpa using hm, hcond⟩
    · obtain ⟨hcond, hm⟩ := mem_ite_of_mem h
      right; right; left
      exact ⟨by simpa using hm, hcond⟩
  · obtain ⟨hcond, hm⟩ := mem_ite_of_mem h
    obtain ⟨b, hb, hbc⟩ := List.mem_map.mp hm
    right; right; right
    exact ⟨b, hbc.symm, hb, hcond⟩

/-- Every planned insert call is an insert, with rank at least 4. -/
theorem mem_insertPlan_rank {regions : List Region} {provinces : List Province}
    {lgus : List Lgu} {barangays : List Barangay} {c : StoreCall}
    (hc : c ∈ insertPlan regions provinces lgus barangays) :
    4 ≤ rank c ∧ c.isInsert = true := by
  rcases mem_insertPlan_cases hc with ⟨h, _⟩ | ⟨h, _⟩ | ⟨h, _⟩ | ⟨b, h, _, _⟩ <;>
    subst h <;> exact ⟨by simp [rank], rfl⟩

/-- A universally true relation is pairwise on any list. -/
theorem pairwise_of_forall_mem {α : Type} {R : α → α → Prop} :
    ∀ l : List α, (∀ a ∈ l, ∀ b ∈ l, R a b) → l.Pairwise R := by
  intro l
  induction l with
  | nil => intro _; exact List.Pairwise.nil
  | cons x xs ih =>
    intro h
    constructor
    · intro b hb
      exact h x (List.mem_cons_self _ _) b (List.mem_cons_of_mem _ hb)
    · exact ih (fun a ha b hb =>
        h a (List.mem_cons_of_mem _ ha) b (List.mem_cons_of_mem _ hb))

/-- The insert plan is emitted in nondecreasing rank order:
regions, provinces, lgus, then the barangay batches. -/
theorem insertPlan_pairwise_rank (regions : List Region) (provinces : List Province)
    (lgus : List Lgu) (barangays : List Barangay) :
    (insertPlan regions provinces lgus barangays).Pairwise
      (fun a b => rank a ≤ rank b) := by
  have hA : ∀ c ∈ (if regions.length > 0 then [StoreCall.insertRegions regions]
      else []), rank c = 4 := by
    intro c hc
    obtain ⟨_, hm⟩ := mem_ite_of_mem hc
    simp only [List.mem_singleton] at hm
    subst hm; rfl
  have hB : ∀ c ∈ (if provinces.length > 0 then [StoreCall.insertProvinces provinces]
      else []), rank c = 5 := by
    intro c hc
    obtain ⟨_, hm⟩ := mem_ite_of_mem hc
    simp only [List.mem_singleton] at hm
    subst hm; rfl
  have hC : ∀ c ∈ (if lgus.length > 0 then [StoreCall.insertLgus lgus]
      else []), rank c = 6 := by
    intro c hc
    obtain ⟨_, hm⟩ := mem_ite_of_mem hc
    simp only [List.mem_singleton] at hm
    subst hm; rfl
  have hD : ∀ c ∈ (if barangays.length > 0 then
      (chunks barangays).map StoreCall.insertBarangays else []), rank c = 7 := by
    intro c hc
    obtain ⟨_, hm⟩ := mem_ite_of_mem hc
    obtain ⟨b, _, hbc⟩ := List.mem_map.mp hm
    subst hbc; rfl
  unfold insertPlan
  rw [List.pairwise_append]
  refine ⟨?_, pairwise_of_forall_mem _
      (fun a ha b hb => by
        have h1 := hD a ha; have h2 := hD b hb; omega), ?_⟩
  · rw [List.pairwise_append]
    refine ⟨?_, pairwise_of_forall_mem _
        (fun a ha b hb => by
          have h1 := hC a ha; have h2 := hC b hb; omega), ?_⟩
    · rw [List.pairwise_append]
      refine ⟨pairwise_of_forall_mem _
          (fun a ha b hb => by
            have h1 := hA a ha; have h2 := hA b hb; omega),
        pairwise_of_forall_mem _
          (fun a ha b hb => by
            have h1 := hB a ha; have h2 := hB b hb; omega), ?_⟩
      intro a ha b hb
      have h1 := hA a ha
      have h2 := hB b hb
      omega
    · intro a ha b hb
      have h2 := hC b hb
      rcases List.mem_append.mp ha with h | h
      · have h1 := hA a h; omega
      · have h1 := hB a h; omega
  · intro a ha b hb
    have h2 := hD b hb
    rcases List.mem_append.mp ha with h | h
    · rcases List.mem_append.mp h with h3 | h3
      · have h1 := hA a h3; omega
      · have h1 := hB a h3; omega
    · have h1 := hC a h; omega

/-- When the report is valid and rows are present, `uploadData` takes the
uploading path: four deletes then the run of the insert plan. -/
theorem uploadData_run (validation : ValidationReport) (rows : List AddressRow)
    (store : Store) (hv : validation.valid = true) (hr : rows ≠ []) :
    uploadData validation rows store =
      { calls := deletePlan ++ (runInserts store (insertPlan (extractRegions rows)
          (extractProvinces rows) (extractLgus rows) (extractBarangays rows))).1
        statuses := [UploadStatus.uploading,
          (runInserts store (insertPlan (extractRegions rows) (extractProvinces rows)
            (extractLgus rows) (extractBarangays rows))).2] } := by
  unfold uploadData
  rw [if_neg (by simp [hv, List.length_eq_zero, hr])]

/-- The insert-payload observer for barangay batch calls. -/
def barangayPayload : StoreCall → Option (List Barangay)
  | StoreCall.insertBarangays records => some records
  | _ => none

/-- The store calls of a full run filter down to exactly the barangay chunks. -/
theorem filterMap_calls_eq_chunks (regions : List Region)
    (provinces : List Province) (lgus : List Lgu) (barangays : List Barangay) :
    ((deletePlan ++ insertPlan regions provinces lgus barangays).filterMap
      barangayPayload) = chunks barangays := by
  rw [List.filterMap_append]
  have h0 : deletePlan.filterMap barangayPayload = [] := rfl
  unfold insertPlan
  rw [h0, List.nil_append, List.filterMap_append, List.filterMap_append,
    List.filterMap_append]
  have hA : (if regions.length > 0 then [StoreCall.insertRegions regions]
      else []).filterMap barangayPayload = [] := by
    split <;> rfl
  have hB : (if provinces.length > 0 then [StoreCall.insertProvinces provinces]
      else []).filterMap barangayPayload = [] := by
    split <;> rfl
  have hC : (if lgus.length > 0 then [StoreCall.insertLgus lgus]
      else []).filterMap barangayPayload = [] := by
    split <;> rfl
  have hD : (if barangays.length > 0 then
      (chunks barangays).map StoreCall.insertBarangays
      else []).filterMap barangayPayload = chunks barangays := by
    by_cases h : barangays.length > 0
    · rw [if_pos h, List.filterMap_map]
      exact List.filterMap_some _
    · rw [if_neg h]
      have hnil : barangays = [] := by
        rw [← List.length_eq_zero]
        omega
      rw [hnil]
      rfl
  rw [hA, hB, hC, hD, List.nil_append, List.nil_append, List.nil_append]

/-- C3 evaluated at the failing input: the store reports an error for the
`lgus` clear step, yet `uploadData` ignores it — the final status is `success`,
not `error`, and insert calls are still issued. -/
def lgusClearFailStore : Store
  | StoreCall.deleteLgus => some "lgus clear failed"
  | _ => none

/-- C3: the code contradicts the claim — all four delete results are discarded
(`await supabase...delete()...` with no error check), so a failing `lgus` clear
neither aborts the upload nor reaches the error state, and inserts are issued
anyway. -/
theorem uploadData_ignores_delete_failure :
    lgusClearFailStore StoreCall.deleteLgus = some "lgus clear failed" ∧
    StoreCall.deleteLgus ∈ (uploadData (parseCSVComplete requiredColumns [sampleRow])
      [sampleRow] lgusClearFailStore).calls ∧
    (uploadData (parseCSVComplete requiredColumns [sampleRow]) [sampleRow]
      lgusClearFailStore).statuses
        = [UploadStatus.uploading, UploadStatus.success] ∧
    ((uploadData (parseCSVComplete requiredColumns [sampleRow]) [sampleRow]
      lgusClearFailStore).calls.any (fun c => c.isInsert)) = true := by
  decide

/-- C9: with an invalid report or an empty row set, `uploadData` rejects
immediately: no store call is issued and no status is set, in particular the
state never becomes `uploading`. -/
theorem upload_guard_rejects (validation : ValidationReport)
    (rows : List AddressRow) (store : Store)
    (h : validation.valid = false ∨ rows = []) :
    (uploadData validation rows store).calls = [] ∧
    (uploadData validation rows store).statuses = [] ∧
    UploadStatus.uploading ∉ (uploadData validation rows store).statuses := by
  have hc : validation.valid = false ∨ rows.length = 0 := by
    rcases h with h | h
    · exact Or.inl h
    · exact Or.inr (by rw [h]; rfl)
  unfold uploadData
  rw [if_pos hc]
  exact ⟨rfl, rfl, by simp⟩

/-- Witness for C9: an invalid report (empty barangay name) rejects. -/
theorem upload_guard_rejects_witness :
    (uploadData (parseCSVComplete requiredColumns [rowMissingBarangayName])
      [rowMissingBarangayName] (fun _ => none)).calls = [] ∧
    (uploadData (parseCSVComplete requiredColumns [rowMissingBarangayName])
      [rowMissingBarangayName] (fun _ => none)).statuses = [] ∧
    UploadStatus.uploading ∉ (uploadData (parseCSVComplete requiredColumns
      [rowMissingBarangayName]) [rowMissingBarangayName] (fun _ => none)).statuses :=
  upload_guard_rejects (parseCSVComplete requiredColumns [rowMissingBarangayName])
    [rowMissingBarangayName] (fun _ => none) (Or.inl (by decide))

/-- C8: once uploading, the trace is the four deletes (barangays, lgus,
provinces, regions) followed only by insert calls, and the whole trace is
issued in nondecreasing `rank` order — so no insert precedes any delete, and
the provinces insert never precedes the regions insert. -/
theorem upload_order_invariant (validation : ValidationReport)
    (rows : List AddressRow) (store : Store)
    (hv : validation.valid = true) (hr : rows ≠ []) :
    ∃ inserts, (uploadData validation rows store).calls = deletePlan ++ inserts ∧
      (∀ c ∈ inserts, c.isInsert = true) ∧
      ((uploadData validation rows store).calls.map rank).Pairwise (· ≤ ·) := by
  rw [uploadData_run validation rows store hv hr]
  obtain ⟨n, hn⟩ := runInserts_prefix store (insertPlan (extractRegions rows)
    (extractProvinces rows) (extractLgus rows) (extractBarangays rows))
  refine ⟨_, rfl, ?_, ?_⟩
  · intro c hc
    rw [hn] at hc
    exact (mem_insertPlan_rank (List.take_subset n _ hc)).2
  · rw [hn, List.map_append, List.pairwise_append]
    refine ⟨by decide, ?_, ?_⟩
    · have hsub : List.Sublist
          (((insertPlan (extractRegions rows) (extractProvinces rows)
            (extractLgus rows) (extractBarangays rows)).take n).map rank)
          ((insertPlan (extractRegions rows) (extractProvinces rows)
            (extractLgus rows) (extractBarangays rows)).map rank) :=
        (List.take_sublist n _).map rank
      exact List.Pairwise.sublist hsub
        ((List.pairwise_map).mpr (insertPlan_pairwise_rank _ _ _ _))
    · intro a ha b hb
      obtain ⟨c, hc, hbc⟩ := List.mem_map.mp hb
      have hrank := (mem_insertPlan_rank (List.take_subset n _ hc)).1
      have hb4 : 4 ≤ b := by
        rw [← hbc]
        exact hrank
      have ha3 : a ≤ 3 := by
        simp [deletePlan, rank] at ha
        rcases ha with h | h | h | h <;> omega
      omega

/-- Witness for C8 on a concrete valid single-row upload. -/
theorem upload_order_invariant_witness :
    ∃ inserts, (uploadData (parseCSVComplete requiredColumns [sampleRow])
        [sampleRow] (fun _ => none)).calls = deletePlan ++ inserts ∧
      (∀ c ∈ inserts, c.isInsert = true) ∧
      ((uploadData (parseCSVComplete requiredColumns [sampleRow]) [sampleRow]
        (fun _ => none)).calls.map rank).Pairwise (· ≤ ·) :=
  upload_order_invariant (parseCSVComplete requiredColumns [sampleRow])
    [sampleRow] (fun _ => none) (by decide) (by decide)

/-- C10: on the uploading path the four delete calls are always issued, while
an insert call for a table is issued only if its extracted collection is
non-empty (an empty collection gets no insert call at all). -/
theorem empty_collections_no_insert (validation : ValidationReport)
    (rows : List AddressRow) (store : Store)
    (hv : validation.valid = true) (hr : rows ≠ []) :
    (∀ c ∈ deletePlan, c ∈ (uploadData validation rows store).calls) ∧
    (extractRegions rows = [] → ∀ rs,
      StoreCall.insertRegions rs ∉ (uploadData validation rows store).calls) ∧
    (extractProvinces rows = [] → ∀ ps,
      StoreCall.insertProvinces ps ∉ (uploadData validation rows store).calls) ∧
    (extractLgus rows = [] → ∀ ls,
      StoreCall.insertLgus ls ∉ (uploadData validation rows store).calls) ∧
    (extractBarangays rows = [] → ∀ bs,
      StoreCall.insertBarangays bs ∉ (uploadData validation rows store).calls) := by
  rw [uploadData_run validation rows store hv hr]
  obtain ⟨n, hn⟩ := runInserts_prefix store (insertPlan (extractRegions rows)
    (extractProvinces rows) (extractLgus rows) (extractBarangays rows))
  rw [hn]
  refine ⟨fun c hc => List.mem_append_left _ hc, ?_, ?_, ?_, ?_⟩
  · intro hempty rs hmem
    rcases List.mem_append.mp hmem with h | h
    · simp [deletePlan] at h
    · rcases mem_insertPlan_cases (List.take_subset n _ h) with
        ⟨he, hlen⟩ | ⟨he, _⟩ | ⟨he, _⟩ | ⟨b, he, _, _⟩
      · rw [hempty] at hlen
        simp at hlen
      · exact StoreCall.noConfusion he
      · exact StoreCall.noConfusion he
      · exact StoreCall.noConfusion he
  · intro hempty ps hmem
    rcases List.mem_append.mp hmem with h | h
    · simp [deletePlan] at h
    · rcases mem_insertPlan_cases (List.take_subset n _ h) with
        ⟨he, _⟩ | ⟨he, hlen⟩ | ⟨he, _⟩ | ⟨b, he, _, _⟩
      · exact StoreCall.noConfusion he
      · rw [hempty] at hlen
        simp at hlen
      · exact StoreCall.noConfusion he
      · exact StoreCall.noConfusion he
  · intro hempty ls hmem
    rcases List.mem_append.mp hmem with h | h
    · simp [deletePlan] at h
    · rcases mem_insertPlan_cases (List.take_subset n _ h) with
        ⟨he, _⟩ | ⟨he, _⟩ | ⟨he, hlen⟩ | ⟨b, he, _, _⟩
      · exact StoreCall.noConfusion he
      · exact StoreCall.noConfusion he
      · rw [hempty] at hlen
        simp at hlen
      · exact StoreCall.noConfusion he
  · intro hempty bs hmem
    rcases List.mem_append.mp hmem with h | h
    · simp [deletePlan] at h
    · rcases mem_insertPlan_cases (List.take_subset n _ h) with
        ⟨he, _⟩ | ⟨he, _⟩ | ⟨he, _⟩ | ⟨b, he, _, hlen⟩
      · exact StoreCall.noConfusion he
      · exact StoreCall.noConfusion he
      · exact StoreCall.noConfusion he
      · rw [hempty] at hlen
        simp at hlen

/-- Witness for C10 on a concrete valid single-row upload. -/
theorem empty_collections_no_insert_witness :
    (∀ c ∈ deletePlan, c ∈ (uploadData (parseCSVComplete requiredColumns
      [sampleRow]) [sampleRow] (fun _ => none)).calls) ∧
    (extractRegions [sampleRow] = [] → ∀ rs,
      StoreCall.insertRegions rs ∉ (uploadData (parseCSVComplete requiredColumns
        [sampleRow]) [sampleRow] (fun _ => none)).calls) ∧
    (extractProvinces [sampleRow] = [] → ∀ ps,
      StoreCall.insertProvinces ps ∉ (uploadData (parseCSVComplete requiredColumns
        [sampleRow]) [sampleRow] (fun _ => none)).calls) ∧
    (extractLgus [sampleRow] = [] → ∀ ls,
      StoreCall.insertLgus ls ∉ (uploadData (parseCSVComplete requiredColumns
        [sampleRow]) [sampleRow] (fun _ => none)).calls) ∧
    (extractBarangays [sampleRow] = [] → ∀ bs,
      StoreCall.insertBarangays bs ∉ (uploadData (parseCSVComplete requiredColumns
        [sampleRow]) [sampleRow] (fun _ => none)).calls) :=
  empty_collections_no_insert (parseCSVComplete requiredColumns [sampleRow])
    [sampleRow] (fun _ => none) (by decide) (by decide)

/-- C7: on a successful run, the barangay insert calls carry exactly the
consecutive batches: ceil(K/1000) calls, each non-empty and at most 1000
records, all but the last exactly 1000, concatenating in order to the original
collection. -/
theorem barangay_batches_cover (validation : ValidationReport)
    (rows : List AddressRow) (hv : validation.valid = true) (hr : rows ≠ []) :
    ((uploadData validation rows (fun _ => none)).calls.filterMap barangayPayload
        = chunks (extractBarangays rows)) ∧
    ((uploadData validation rows (fun _ => none)).calls.filterMap
        barangayPayload).length
      = ((extractBarangays rows).length + (BATCH_SIZE - 1)) / BATCH_SIZE ∧
    ((uploadData validation rows (fun _ => none)).calls.filterMap
        barangayPayload).flatten = extractBarangays rows ∧
    (∀ b ∈ (uploadData validation rows (fun _ => none)).calls.filterMap
        barangayPayload, 0 < b.length ∧ b.length ≤ BATCH_SIZE) ∧
    (∀ b ∈ ((uploadData validation rows (fun _ => none)).calls.filterMap
        barangayPayload).dropLast, b.length = BATCH_SIZE) := by
  have hcalls : (uploadData validation rows (fun _ => none)).calls
      = deletePlan ++ insertPlan (extractRegions rows) (extractProvinces rows)
          (extractLgus rows) (extractBarangays rows) := by
    rw [uploadData_run validation rows (fun _ => none) hv hr, runInserts_all_ok]
  rw [hcalls, filterMap_calls_eq_chunks]
  exact ⟨rfl, chunks_length_eq _, chunks_flatten _, chunks_mem_size _,
    chunks_dropLast_size _⟩

/-- Witness for C7 on a concrete valid single-row upload. -/
theorem barangay_batches_cover_witness :
    (((uploadData (parseCSVComplete requiredColumns [sampleRow]) [sampleRow]
        (fun _ => none)).calls.filterMap barangayPayload
        = chunks (extractBarangays [sampleRow])) ∧
      ((uploadData (parseCSVComplete requiredColumns [sampleRow]) [sampleRow]
          (fun _ => none)).calls.filterMap barangayPayload).length
        = ((extractBarangays [sampleRow]).length + (BATCH_SIZE - 1)) / BATCH_SIZE ∧
      ((uploadData (parseCSVComplete requiredColumns [sampleRow]) [sampleRow]
          (fun _ => none)).calls.filterMap barangayPayload).flatten
        = extractBarangays [sampleRow] ∧
      (∀ b ∈ (uploadData (parseCSVComplete requiredColumns [sampleRow]) [sampleRow]
          (fun _ => none)).calls.filterMap barangayPayload,
        0 < b.length ∧ b.length ≤ BATCH_SIZE) ∧
      (∀ b ∈ ((uploadData (parseCSVComplete requiredColumns [sampleRow]) [sampleRow]
          (fun _ => none)).calls.filterMap barangayPayload).dropLast,
        b.length = BATCH_SIZE)) ∧
    ((uploadData (parseCSVComplete requiredColumns [sampleRow]) [sampleRow]
      (fun _ => none)).calls.filterMap barangayPayload).length = 1 :=
  ⟨barangay_batches_cover (parseCSVComplete requiredColumns [sampleRow])
    [sampleRow] (by decide) (by decide), by decide⟩

end AddressManagement
